import Mathlib

/-!
Shallow embedding of the DeepMu document ingestion pipeline
(`services/document_service.py` together with its collaborators
`services/cache_service.py` and `services/qdrant_service.py`), and proofs
about the ingestion claims.

Modelling conventions:
* Python `str` is modelled as `List Char` (`PyStr`); Python `bytes` as
  `List Nat` (`PyBytes`).
* External library calls (`magic.from_buffer`, `hashlib.sha256`,
  `secure_filename`, the spaCy sentence splitter, the sentence-transformer
  encoder) are oracle function parameters collected in `Env`; the Redis
  cache contents and the Qdrant storage verdict are oracle parameters
  collected in `World`.
* Fallible Python code is modelled with `Option`: `Option.none` stands for
  a raised exception (or Python `None`).
* Embedding-vector entries are opaque payloads that the pipeline never
  computes with; they are modelled as `Int` to keep everything decidable.
-/

namespace DeepMu

/-- Python strings, modelled as lists of characters. -/
abbrev PyStr := List Char

/-- Python byte strings, modelled as lists of byte values. -/
abbrev PyBytes := List Nat

/-- The whitespace characters recognised by Python's `str.split()` /
`str.strip()` (space, tab, newline, carriage return, vertical tab,
form feed). -/
def isSpaceChar (c : Char) : Bool :=
  c = ' ' || c = '\t' || c = '\n' || c = '\r' || c = Char.ofNat 11 || c = Char.ofNat 12

/-- Emit the (reversed) accumulator as a final token, or nothing if it is
empty.  Helper for `pySplit`. -/
def flushAcc (acc : List Char) : List PyStr :=
  match acc with
  | [] => []
  | _ => [acc.reverse]

/-- Tokeniser worker behind `pySplit`: walks the characters, accumulating
the current token in reverse. -/
def pySplitAux : List Char → List Char → List PyStr
  | [], acc => flushAcc acc
  | c :: cs, acc =>
    if isSpaceChar c then flushAcc acc ++ pySplitAux cs []
    else pySplitAux cs (c :: acc)

/-- Python `s.split()` (no argument): the maximal runs of non-whitespace
characters of `s`, in order. -/
def pySplit (s : PyStr) : List PyStr :=
  pySplitAux s []

/-- Python `s.strip()`: remove leading and trailing whitespace. -/
def pyStrip (s : PyStr) : PyStr :=
  ((s.dropWhile isSpaceChar).reverse.dropWhile isSpaceChar).reverse

/-- Python `" ".join(ws)`. -/
def joinWords : List PyStr → PyStr
  | [] => []
  | [w] => w
  | w :: ws => w ++ ' ' :: joinWords ws

theorem pySplitAux_append_space {c : Char} (hc : isSpaceChar c) (a b : List Char) :
    ∀ acc, pySplitAux (a ++ c :: b) acc = pySplitAux a acc ++ pySplitAux b [] := by
  induction a with
  | nil => intro acc; simp [pySplitAux, hc]
  | cons x xs ih =>
    intro acc
    by_cases hx : isSpaceChar x
    · simp [pySplitAux, hx, ih]
    · simp [pySplitAux, hx, ih]

/-- `split` distributes over concatenation at a whitespace character. -/
theorem pySplit_append_space {c : Char} (hc : isSpaceChar c) (a b : List Char) :
    pySplit (a ++ c :: b) = pySplit a ++ pySplit b := by
  simpa [pySplit] using pySplitAux_append_space hc a b []

theorem pySplitAux_nospace {s : List Char} (hs : ∀ c ∈ s, ¬ isSpaceChar c) :
    ∀ acc, pySplitAux s acc = flushAcc (s.reverse ++ acc) := by
  induction s with
  | nil => intro acc; simp [pySplitAux]
  | cons x xs ih =>
    intro acc
    have hx : ¬ isSpaceChar x := hs x (by simp)
    have := ih (fun c hc => hs c (by simp [hc]))
    simp [pySplitAux, hx, this (x :: acc)]

/-- A nonempty whitespace-free string is a single token of itself. -/
theorem pySplit_nospace {s : PyStr} (hne : s ≠ []) (hs : ∀ c ∈ s, ¬ isSpaceChar c) :
    pySplit s = [s] := by
  have h := pySplitAux_nospace hs []
  have hrev : s.reverse ≠ [] := by simpa using hne
  rw [pySplit, h]
  rcases hr : s.reverse with _ | ⟨y, ys⟩
  · exact absurd hr hrev
  · simp [flushAcc, ← hr]

theorem pySplitAux_ne_nil {acc : List Char} (hacc : acc ≠ []) (s : List Char) :
    pySplitAux s acc ≠ [] := by
  induction s generalizing acc with
  | nil =>
    rcases acc with _ | ⟨a, as⟩
    · exact absurd rfl hacc
    · simp [pySplitAux, flushAcc]
  | cons x xs ih =>
    rcases acc with _ | ⟨a, as⟩
    · exact absurd rfl hacc
    · by_cases hx : isSpaceChar x <;> simp [pySplitAux, hx, flushAcc]
      exact ih (by simp)

theorem pySplit_nil : pySplit [] = [] := rfl

theorem pySplit_allspace {s : PyStr} (hs : ∀ c ∈ s, isSpaceChar c) :
    pySplit s = [] := by
  induction s with
  | nil => rfl
  | cons x xs ih =>
    have hx : isSpaceChar x := hs x (by simp)
    have := ih (fun c hc => hs c (by simp [hc]))
    simpa [pySplit, pySplitAux, hx, flushAcc] using this

/-- Membership in a flushed accumulator. -/
theorem mem_flushAcc {t : PyStr} {acc : List Char} (h : t ∈ flushAcc acc) :
    t = acc.reverse ∧ acc ≠ [] := by
  rcases acc with _ | ⟨a, as⟩
  · simp [flushAcc] at h
  · simp only [flushAcc, List.mem_singleton] at h
    exact ⟨h, by simp⟩

theorem pySplit_ne_nil_of_not_allspace {s : PyStr} (hs : ¬ ∀ c ∈ s, isSpaceChar c) :
    pySplit s ≠ [] := by
  induction s with
  | nil => exact absurd (fun c hc => absurd hc (List.not_mem_nil c)) hs
  | cons x xs ih =>
    by_cases hx : isSpaceChar x
    · have hxs : ¬ ∀ c ∈ xs, isSpaceChar c := by
        intro h
        apply hs
        intro c hc
        rcases List.mem_cons.mp hc with rfl | h2
        · exact hx
        · exact h c h2
      simpa [pySplit, pySplitAux, hx, flushAcc] using ih hxs
    · simpa [pySplit, pySplitAux, hx] using pySplitAux_ne_nil (by simp) xs

/-- `pySplit s` is empty exactly when `s` is all whitespace. -/
theorem pySplit_eq_nil_iff {s : PyStr} :
    pySplit s = [] ↔ ∀ c ∈ s, isSpaceChar c := by
  constructor
  · intro h
    by_contra hn
    exact pySplit_ne_nil_of_not_allspace hn h
  · exact pySplit_allspace

theorem pySplit_dropWhile (s : PyStr) :
    pySplit (s.dropWhile isSpaceChar) = pySplit s := by
  induction s with
  | nil => rfl
  | cons x xs ih =>
    by_cases hx : isSpaceChar x
    · simpa [List.dropWhile, hx, pySplit, pySplitAux, flushAcc] using ih
    · simp [List.dropWhile, hx]

theorem pySplit_append_allspace {t : PyStr} (ht : ∀ c ∈ t, isSpaceChar c) (s : PyStr) :
    pySplit (s ++ t) = pySplit s := by
  rcases t with _ | ⟨c, t'⟩
  · simp
  · have hc : isSpaceChar c := ht c (by simp)
    have ht' : ∀ x ∈ t', isSpaceChar x := fun x hx => ht x (by simp [hx])
    rw [pySplit_append_space hc, pySplit_allspace ht', List.append_nil]

/-- Stripping whitespace from both ends does not change the tokens. -/
theorem pySplit_pyStrip (s : PyStr) : pySplit (pyStrip s) = pySplit s := by
  have hdecomp : s.dropWhile isSpaceChar =
      pyStrip s ++ ((s.dropWhile isSpaceChar).reverse.takeWhile isSpaceChar).reverse := by
    have h := List.takeWhile_append_dropWhile (p := isSpaceChar)
      (l := (s.dropWhile isSpaceChar).reverse)
    calc s.dropWhile isSpaceChar
        = (s.dropWhile isSpaceChar).reverse.reverse := by simp
      _ = (((s.dropWhile isSpaceChar).reverse.takeWhile isSpaceChar) ++
            ((s.dropWhile isSpaceChar).reverse.dropWhile isSpaceChar)).reverse := by rw [h]
      _ = pyStrip s ++ ((s.dropWhile isSpaceChar).reverse.takeWhile isSpaceChar).reverse := by
            rw [List.reverse_append]; rfl
  have hsp : ∀ c ∈ ((s.dropWhile isSpaceChar).reverse.takeWhile isSpaceChar).reverse,
      isSpaceChar c := by
    intro c hc
    exact List.mem_takeWhile_imp (List.mem_reverse.mp hc)
  calc pySplit (pyStrip s)
      = pySplit (pyStrip s ++ ((s.dropWhile isSpaceChar).reverse.takeWhile isSpaceChar).reverse) :=
        (pySplit_append_allspace hsp _).symm
    _ = pySplit (s.dropWhile isSpaceChar) := by rw [← hdecomp]
    _ = pySplit s := pySplit_dropWhile s

theorem pyStrip_eq_nil_iff {s : PyStr} :
    pyStrip s = [] ↔ ∀ c ∈ s, isSpaceChar c := by
  constructor
  · intro h
    rw [← pySplit_eq_nil_iff, ← pySplit_pyStrip s]
    rw [h]; rfl
  · intro h
    have h1 : s.dropWhile isSpaceChar = [] := List.dropWhile_eq_nil_iff.mpr h
    simp [pyStrip, h1]

/-- Strip-emptiness and token-emptiness agree. -/
theorem pyStrip_eq_nil_iff_pySplit {s : PyStr} :
    pyStrip s = [] ↔ pySplit s = [] := by
  rw [pyStrip_eq_nil_iff, pySplit_eq_nil_iff]

/-- Every token produced by `pySplit` is nonempty and whitespace-free. -/
theorem pySplitAux_tokens {s acc : List Char} (hacc : ∀ c ∈ acc, ¬ isSpaceChar c) :
    ∀ t ∈ pySplitAux s acc, t ≠ [] ∧ ∀ c ∈ t, ¬ isSpaceChar c := by
  induction s generalizing acc with
  | nil =>
    intro t ht
    rcases mem_flushAcc (by simpa [pySplitAux] using ht) with ⟨rfl, hne⟩
    exact ⟨by simpa using hne, fun c hc => hacc c (List.mem_reverse.mp hc)⟩
  | cons x xs ih =>
    intro t ht
    by_cases hx : isSpaceChar x
    · rw [show pySplitAux (x :: xs) acc =
          flushAcc acc ++ pySplitAux xs [] from by simp [pySplitAux, hx]] at ht
      rcases List.mem_append.mp ht with h1 | h2
      · rcases mem_flushAcc h1 with ⟨rfl, hne⟩
        exact ⟨by simpa using hne, fun c hc => hacc c (List.mem_reverse.mp hc)⟩
      · exact ih (fun c hc => absurd hc (List.not_mem_nil c)) t h2
    · rw [show pySplitAux (x :: xs) acc =
          pySplitAux xs (x :: acc) from by simp [pySplitAux, hx]] at ht
      refine ih ?_ t ht
      intro c hc
      rcases List.mem_cons.mp hc with rfl | h2
      · exact fun hsp => hx hsp
      · exact hacc c h2

theorem pySplit_tokens {s : PyStr} :
    ∀ t ∈ pySplit s, t ≠ [] ∧ ∀ c ∈ t, ¬ isSpaceChar c :=
  pySplitAux_tokens (by intro c hc; cases hc)

/-- Joining nonempty whitespace-free words and re-splitting recovers the
words. -/
theorem pySplit_joinWords {ws : List PyStr}
    (hws : ∀ w ∈ ws, w ≠ [] ∧ ∀ c ∈ w, ¬ isSpaceChar c) :
    pySplit (joinWords ws) = ws := by
  induction ws with
  | nil => rfl
  | cons w ws ih =>
    rcases ws with _ | ⟨w', ws'⟩
    · have hw := hws w (by simp)
      simpa [joinWords] using pySplit_nospace hw.1 hw.2
    · have hw := hws w (by simp)
      have hrest : ∀ v ∈ w' :: ws', v ≠ [] ∧ ∀ c ∈ v, ¬ isSpaceChar c := by
        intro v hv; exact hws v (by simp [hv] )
      have hsp : isSpaceChar ' ' := by decide
      calc pySplit (joinWords (w :: w' :: ws'))
          = pySplit (w ++ ' ' :: joinWords (w' :: ws')) := rfl
        _ = pySplit w ++ pySplit (joinWords (w' :: ws')) := pySplit_append_space hsp _ _
        _ = [w] ++ (w' :: ws') := by rw [pySplit_nospace hw.1 hw.2, ih hrest]
        _ = w :: w' :: ws' := rfl

theorem tokens_of_rtake {l : List PyStr} {n : Nat}
    (hl : ∀ w ∈ l, w ≠ [] ∧ ∀ c ∈ w, ¬ isSpaceChar c) :
    ∀ w ∈ l.rtake n, w ≠ [] ∧ ∀ c ∈ w, ¬ isSpaceChar c := by
  intro w hw
  exact hl w (List.mem_of_mem_drop (by simpa [List.rtake] using hw))

/-! ## Data model (§3) -/

/-- The chunk-type tag of a `TextChunk`. -/
inductive ChunkType where
  | semantic
  | fallback
deriving DecidableEq

/-- A text chunk as built by `DocumentProcessor._intelligent_chunking`:
the dict `{"text": ..., "type": ..., "token_count": ...}`. -/
structure Chunk where
  text : PyStr
  ctype : ChunkType
  token_count : Nat
deriving DecidableEq

/-- Document metadata as built by `DocumentProcessor._generate_metadata`. -/
structure Metadata where
  file_name : PyStr
  file_hash : PyStr
  file_size : Nat
  file_type : PyStr
  mime_type : PyStr
  upload_timestamp : PyStr
  user_id : Option PyStr
  domain : PyStr
  processing_version : PyStr
deriving DecidableEq

/-- One storable document entry as assembled in
`DocumentProcessor.process_document` (the per-chunk dict handed to
`qdrant_service.add_documents`); the nested metadata dict is flattened
into `mdBase` plus the three chunk fields. -/
structure StorableDoc where
  id : PyStr
  text : PyStr
  embedding : List Int
  mdBase : Metadata
  chunk_index : Nat
  chunk_type : ChunkType
  chunk_size : Nat
  file_name : PyStr
deriving DecidableEq

/-- A value held in the embedding list of `_generate_embeddings`: Python
`None`, a freshly encoded numpy array, or a plain list deserialized from
the Redis cache. -/
inductive PyEmb where
  | pynone
  | arr (v : List Int)
  | plist (v : List Int)
deriving DecidableEq

/-- Python `embedding.tolist()`: defined on numpy arrays only; calling it
on `None` or on a plain list raises `AttributeError` (modelled as
`Option.none`). -/
def tolist : PyEmb → Option (List Int)
  | PyEmb.arr v => some v
  | _ => none

/-- External collaborators and static configuration of the processor,
passed as oracles. -/
structure Env where
  maxFileSize : Nat
  magicMime : PyBytes → PyStr
  secureFilename : PyStr → PyStr
  nowIso : PyStr
  domain : PyStr
  sha256hex : PyBytes → PyStr
  hashText : PyStr → PyStr
  sentSplit : PyStr → Option (List PyStr)
  encode : List PyStr → List (List Int)
  batchSize : Nat
  extractOracle : PyBytes → PyStr → Option PyStr

/-- The result dict cached by `_cache_processing_result` under
`document_processing:<file_hash>`. -/
structure CachedResult where
  documents : List StorableDoc
  metadata : Metadata
  processing_time : PyStr
deriving DecidableEq

/-- The mutable outside world read by one `process_document` call: the
Redis cache contents at lookup time and the Qdrant storage verdict. -/
structure World where
  embGet : PyStr → Option (List Int)
  procGet : PyStr → Option CachedResult
  storageOk : List StorableDoc → Bool

/-! ## ContentValidator (§4.1): `_security_validation` and
`_detect_malicious_content` -/

/-- The `supported_formats` allow-list from `DocumentProcessor.__init__`. -/
def supported_formats : List PyStr :=
  [".pdf".toList, ".docx".toList, ".doc".toList, ".txt".toList, ".md".toList,
   ".html".toList, ".htm".toList, ".rtf".toList, ".xlsx".toList, ".xls".toList,
   ".csv".toList, ".json".toList, ".xml".toList,
   ".png".toList, ".jpg".toList, ".jpeg".toList, ".tiff".toList, ".bmp".toList]

/-- The `expected_mimes` mapping from `_security_validation`. -/
def expected_mimes : List (PyStr × PyStr) :=
  [(".pdf".toList, "application/pdf".toList),
   (".docx".toList,
    "application/vnd.openxmlformats-officedocument.wordprocessingml.document".toList),
   (".txt".toList, "text/plain".toList),
   (".json".toList, "application/json".toList),
   (".png".toList, "image/png".toList),
   (".jpg".toList, "image/jpeg".toList),
   (".jpeg".toList, "image/jpeg".toList)]

/-- Python `pathlib.Path(filename).suffix.lower()`: the last dot-suffix of
the final path component, lowercased; empty when the name has no usable
suffix (no dot, leading dot only, or trailing dot). -/
def pathSuffix (f : PyStr) : PyStr :=
  let name := (f.reverse.takeWhile (fun c => c ≠ '/')).reverse
  let rev := name.reverse
  let extRev := rev.takeWhile (fun c => c ≠ '.')
  if extRev.length = rev.length then []
  else if 0 < extRev.length ∧ extRev.length < rev.length - 1 then
    ('.' :: extRev.reverse).map Char.toLower
  else []

/-- Python `bytes.lower()` on a single byte (ASCII letters only). -/
def byteLower (b : Nat) : Nat :=
  if 65 ≤ b ∧ b ≤ 90 then b + 32 else b

/-- The `suspicious_patterns` byte substrings from
`_detect_malicious_content`. -/
def suspicious_patterns : List PyBytes :=
  ["<script".toList.map Char.toNat,
   "javascript:".toList.map Char.toNat,
   "eval(".toList.map Char.toNat,
   "exec(".toList.map Char.toNat,
   "system(".toList.map Char.toNat,
   "shell_exec".toList.map Char.toNat]

/-- `DocumentProcessor._detect_malicious_content`: substring scan over the
lowercased byte content. -/
def detect_malicious_content (content : PyBytes) : Bool :=
  suspicious_patterns.any (fun p => decide (p <:+: content.map byteLower))

/-- The result of `_security_validation`: the `safe` flag and the
`checks` dict (an insertion-ordered association list). -/
structure ValidationResult where
  safe : Bool
  checks : List (PyStr × PyStr)
deriving DecidableEq

/-- Decimal rendering of a natural number, for the f-string messages. -/
def natStr (n : Nat) : PyStr := Nat.toDigits 10 n

/-- The tail of `_security_validation` after the MIME check: the virus-scan
placeholder entry followed by the malicious-content scan. -/
def postMimeChecks (content : PyBytes) : ValidationResult :=
  if detect_malicious_content content then
    ⟨false, [("virus_scan".toList, "passed".toList),
             ("malicious_content".toList,
              "Potential malicious content detected".toList)]⟩
  else
    ⟨true, [("virus_scan".toList, "passed".toList),
            ("security".toList, "passed".toList)]⟩

/-- `DocumentProcessor._security_validation`: size limit, extension
allow-list, MIME-vs-extension (when mapped), suspicious-pattern scan, in
this order, returning on the first failure. -/
def securityValidation (maxFileSize : Nat) (magicMime : PyBytes → PyStr)
    (content : PyBytes) (filename : PyStr) : ValidationResult :=
  if content.length > maxFileSize then
    ⟨false, [("file_size".toList,
              "File too large: ".toList ++ natStr content.length ++ " bytes".toList)]⟩
  else if pathSuffix filename ∉ supported_formats then
    ⟨false, [("extension".toList,
              "Unsupported file type: ".toList ++ pathSuffix filename)]⟩
  else
    match expected_mimes.lookup (pathSuffix filename) with
    | some m =>
      if magicMime content ≠ m then
        ⟨false, [("mime_type".toList,
                  "MIME mismatch: expected ".toList ++ m ++ ", got ".toList ++
                    magicMime content)]⟩
      else postMimeChecks content
    | none => postMimeChecks content

/-! ## TextExtractor (§4.2): `_extract_pdf_text` -/

/-- The page loop of `_extract_pdf_text`: each element is one
`page.extract_text()` outcome (`none` = the call raised).  Returns the
accumulated `text` on success and `none` as soon as any page raises. -/
def pdfPagesText : List (Option PyStr) → Option PyStr
  | [] => some []
  | p :: ps =>
    match p with
    | none => none
    | some t =>
      match pdfPagesText ps with
      | none => none
      | some rest => some (t ++ '\n' :: rest)

/-- `DocumentProcessor._extract_pdf_text`: strip the accumulated text on
success; return the empty string if any page extraction raised. -/
def extract_pdf_text (pages : List (Option PyStr)) : PyStr :=
  match pdfPagesText pages with
  | some t => pyStrip t
  | none => []

/-! ## SemanticChunker (§4.3): `_intelligent_chunking` -/

/-- The sentence loop of `_intelligent_chunking`: `buf` is
`current_chunk`, `size` is `current_size`, `acc` the chunks built so far;
the final flush of the remaining buffer is included. -/
def chunkLoop : List PyStr → PyStr → Nat → List Chunk → List Chunk
  | [], buf, size, acc =>
    if pyStrip buf ≠ [] then acc ++ [⟨pyStrip buf, ChunkType.semantic, size⟩] else acc
  | s :: rest, buf, size, acc =>
    if size + (pySplit s).length > 1000 ∧ buf ≠ [] then
      chunkLoop rest (joinWords ((pySplit buf).rtake 200) ++ ' ' :: s)
        (pySplit (joinWords ((pySplit buf).rtake 200) ++ ' ' :: s)).length
        (acc ++ [⟨pyStrip buf, ChunkType.semantic, size⟩])
    else
      chunkLoop rest (buf ++ ' ' :: s) (size + (pySplit s).length) acc

/-- `DocumentProcessor._intelligent_chunking`.  `sentsRes` is the outcome
of the spaCy sentence model on `text` (`none` = the call raised, which the
`except` turns into the single fallback chunk).  `chunk_size = 1000`,
`overlap = 200` as in the source. -/
def intelligent_chunking (sentsRes : Option (List PyStr)) (text : PyStr) : List Chunk :=
  if pyStrip text = [] then []
  else
    match sentsRes with
    | none => [⟨text, ChunkType.fallback, (pySplit text).length⟩]
    | some raw =>
      chunkLoop ((raw.map pyStrip).filter (fun s => s ≠ [])) [] 0 []

/-- Modelled from the spec's words (§4.3 / claim C2): the chunking
algorithm stated directly on sentences given as word lists — close the
chunk, tagged semantic, exactly when appending the next sentence would
push the buffer's word count over `target` and the buffer is nonempty;
restart from the trailing `overlap` words; flush the remaining buffer. -/
def chunkerSpecLoop (target overlap : Nat) :
    List (List PyStr) → List PyStr → List (List PyStr × ChunkType)
  | [], buf => if buf ≠ [] then [(buf, ChunkType.semantic)] else []
  | s :: rest, buf =>
    if buf.length + s.length > target ∧ buf ≠ [] then
      (buf, ChunkType.semantic) :: chunkerSpecLoop target overlap rest (buf.rtake overlap ++ s)
    else
      chunkerSpecLoop target overlap rest (buf ++ s)

/-- Concatenate chunks (as word lists) with each chunk's overlap prefix —
the trailing `overlap` words of its predecessor (`prev` for the first
chunk) — removed.  With `prev = []` the first chunk is kept whole; this is
the reconstruction operation of the chunk-ordering invariant (§8). -/
def joinDropFrom {α : Type} (overlap : Nat) : List α → List (List α) → List α
  | _, [] => []
  | prev, c :: cs => c.drop (prev.rtake overlap).length ++ joinDropFrom overlap c cs

/-! ## Metadata (§4.6 step 4): `_generate_metadata` -/

/-- `DocumentProcessor._generate_metadata`.  The fingerprint `file_hash`
is the SHA-256 hex digest of the raw byte content alone. -/
def generate_metadata (env : Env) (content : PyBytes) (filename : PyStr)
    (user : Option PyStr) : Metadata :=
  { file_name := env.secureFilename filename
    file_hash := env.sha256hex content
    file_size := content.length
    file_type := pathSuffix filename
    mime_type := env.magicMime content
    upload_timestamp := env.nowIso
    user_id := user
    domain := env.domain
    processing_version := "1.0".toList }

/-! ## EmbeddingCache and EmbeddingEncoder (§4.4, §4.5):
`_generate_embeddings` with `cache_service` -/

/-- The Redis key used by `CacheService.cache_embeddings` /
`get_cached_embeddings` for a chunk text. -/
def embKey (env : Env) (t : PyStr) : PyStr :=
  "embedding:".toList ++ env.hashText t

/-- A cache probe as `_generate_embeddings` sees it: the deserialized
value, with Python truthiness (`if cached_embedding:`) — an empty list
counts as a miss. -/
def cacheHit (embGet : PyStr → Option (List Int)) (k : PyStr) : Option (List Int) :=
  match embGet k with
  | some v => if v = [] then none else some v
  | none => none

/-- The first pass of `_generate_embeddings`: probe the cache for every
chunk text, collecting `cached_embeddings` (index, value), the
`uncached_texts` and the `uncached_indices`, all in input order. -/
def splitHits (env : Env) (embGet : PyStr → Option (List Int)) :
    List PyStr → Nat → List (Nat × List Int) × List PyStr × List Nat
  | [], _ => ([], [], [])
  | t :: ts, i =>
    let r := splitHits env embGet ts (i + 1)
    match cacheHit embGet (embKey env t) with
    | some v => ((i, v) :: r.1, r.2.1, r.2.2)
    | none => (r.1, t :: r.2.1, i :: r.2.2)

/-- Structural worker for `batches`; the fuel is an upper bound on the
number of slices (the list length suffices). -/
def batchesAux {α : Type} (bs : Nat) : Nat → List α → List (List α)
  | _, [] => []
  | 0, _ :: _ => []
  | fuel + 1, x :: xs =>
    if bs = 0 then []
    else (x :: xs).take bs :: batchesAux bs fuel (xs.drop (bs - 1))

/-- The batching loop `for i in range(0, len(uncached_texts), batch_size)`
with slices `uncached_texts[i:i+batch_size]`. -/
def batches {α : Type} (bs : Nat) (l : List α) : List (List α) :=
  batchesAux bs l.length l

/-- The observable outcome of `_generate_embeddings`: the embedding list
(in chunk order) plus the encoder call trace and the cache writes (key,
value, TTL) it performed. -/
structure EmbOut where
  embeddings : List PyEmb
  encoderCalls : List (List PyStr)
  cacheWrites : List (PyStr × List Int × Nat)
deriving DecidableEq

/-- The `cached_embeddings` list of `_generate_embeddings`. -/
def cachedPairs (env : Env) (g : PyStr → Option (List Int)) (texts : List PyStr) :
    List (Nat × List Int) :=
  (splitHits env g texts 0).1

/-- The `uncached_texts` list of `_generate_embeddings`. -/
def uncachedTexts (env : Env) (g : PyStr → Option (List Int)) (texts : List PyStr) :
    List PyStr :=
  (splitHits env g texts 0).2.1

/-- The `uncached_indices` list of `_generate_embeddings`. -/
def uncachedIdx (env : Env) (g : PyStr → Option (List Int)) (texts : List PyStr) :
    List Nat :=
  (splitHits env g texts 0).2.2

/-- The batches passed to `self.embedding_model.encode` (none when
`uncached_texts` is empty, since the `if uncached_texts:` guard skips the
encoding loop). -/
def encoderCallsOf (env : Env) (g : PyStr → Option (List Int)) (texts : List PyStr) :
    List (List PyStr) :=
  if uncachedTexts env g texts = [] then []
  else batches env.batchSize (uncachedTexts env g texts)

/-- The `new_embeddings` list: the concatenated encoder outputs. -/
def newEmbsOf (env : Env) (g : PyStr → Option (List Int)) (texts : List PyStr) :
    List (List Int) :=
  ((encoderCallsOf env g texts).map env.encode).flatten

/-- The `zip(uncached_texts, new_embeddings, uncached_indices)` triple of
the write-back loop (Python `zip` truncates to the shortest input). -/
def tripOf (env : Env) (g : PyStr → Option (List Int)) (texts : List PyStr) :
    List ((PyStr × List Int) × Nat) :=
  ((uncachedTexts env g texts).zip (newEmbsOf env g texts)).zip (uncachedIdx env g texts)

/-- `DocumentProcessor._generate_embeddings` with
`CacheService.cache_embeddings` inlined (which stores under
`embedding:<hash>` with `ttl or 86400`): cache probe pass, batch encoding
of the misses, cache write-back, then merge by index into the
`embeddings = [None] * len(texts)` array. -/
def generate_embeddings (env : Env) (embGet : PyStr → Option (List Int))
    (chunks : List Chunk) : EmbOut :=
  ⟨(cachedPairs env embGet (chunks.map (fun c => c.text))).foldl
      (fun es p => es.set p.1 (PyEmb.plist p.2))
      ((tripOf env embGet (chunks.map (fun c => c.text))).foldl
        (fun es p => es.set p.2 (PyEmb.arr p.1.2))
        (List.replicate (chunks.map (fun c => c.text)).length PyEmb.pynone)),
   encoderCallsOf env embGet (chunks.map (fun c => c.text)),
   (tripOf env embGet (chunks.map (fun c => c.text))).map
      (fun p => (embKey env p.1.1, p.1.2, 86400))⟩

/-! ## IngestionCoordinator (§4.6): `process_document` -/

/-- The document-assembly loop of `process_document` (lines 101-116):
build one `StorableDoc` per `(chunk, embedding)` pair of
`zip(chunks, embeddings)` with running index `i`; `none` when some
`embedding.tolist()` raises. -/
def buildDocs (md : Metadata) (filename : PyStr) :
    List (Chunk × PyEmb) → Nat → Option (List StorableDoc)
  | [], _ => some []
  | (ch, e) :: rest, i =>
    match tolist e, buildDocs md filename rest (i + 1) with
    | some v, some ds =>
      some (⟨md.file_hash ++ '_' :: natStr i, ch.text, v, md, i, ch.ctype,
             ch.text.length, filename⟩ :: ds)
    | _, _ => none

/-- The structured value of the dict returned by `process_document`. -/
inductive ProcResult where
  | securityError (details : ValidationResult)
  | extractionError
  | attributeError
  | success (documents_count : Nat) (documents : List StorableDoc)
      (metadata : Metadata) (storage_qdrant : Bool)
deriving DecidableEq

/-- Whether a `ProcResult` is the `{"success": True, ...}` dict. -/
def ProcResult.isSuccess : ProcResult → Bool
  | ProcResult.success _ _ _ _ => true
  | _ => false

/-- The Redis key used by `_cache_processing_result` and
`get_processing_status`. -/
def procKey (fileHash : PyStr) : PyStr :=
  "document_processing:".toList ++ fileHash

/-- The observable outcome of one `process_document` call: its returned
result plus every processing-result cache write, encoder call and
embedding-cache write performed on the way. -/
structure ProcOutput where
  result : ProcResult
  procWrites : List (PyStr × CachedResult × Nat)
  encoderCalls : List (List PyStr)
  embWrites : List (PyStr × List Int × Nat)
deriving DecidableEq

/-- `DocumentProcessor.process_document`: security validation, text
extraction (outcome supplied by the `extractOracle` collaborator,
`none`/empty = no text), metadata, chunking, embeddings, assembly (an
`AttributeError` from `.tolist()` is caught by the outer `except`),
storage dispatch, result caching.  Note that it never reads the
processing-result cache. -/
def process_document (env : Env) (w : World) (content : PyBytes)
    (filename : PyStr) (user : Option PyStr) : ProcOutput :=
  let sec := securityValidation env.maxFileSize env.magicMime content filename
  if sec.safe = false then ⟨ProcResult.securityError sec, [], [], []⟩
  else
    match env.extractOracle content filename with
    | none => ⟨ProcResult.extractionError, [], [], []⟩
    | some t =>
      if t = [] then ⟨ProcResult.extractionError, [], [], []⟩
      else
        let md := generate_metadata env content filename user
        let chunks := intelligent_chunking (env.sentSplit t) t
        let eo := generate_embeddings env w.embGet chunks
        match buildDocs md filename (chunks.zip eo.embeddings) 0 with
        | none => ⟨ProcResult.attributeError, [], eo.encoderCalls, eo.cacheWrites⟩
        | some docs =>
          ⟨ProcResult.success docs.length docs md (w.storageOk docs),
           [(procKey md.file_hash, ⟨docs, md, env.nowIso⟩, 86400)],
           eo.encoderCalls, eo.cacheWrites⟩

/-- `DocumentProcessor.get_processing_status`: a plain cache read of the
`document_processing:<hash>` key. -/
def get_processing_status (w : World) (fileHash : PyStr) : Option CachedResult :=
  w.procGet (procKey fileHash)

/-! ## Chunker lemmas -/

/-- Word-level view of a chunk: its token list and its type tag. -/
def toW (c : Chunk) : List PyStr × ChunkType :=
  (pySplit c.text, c.ctype)

theorem pySplit_append_word (a b : PyStr) :
    pySplit (a ++ ' ' :: b) = pySplit a ++ pySplit b :=
  pySplit_append_space (by decide) a b

/-- Tokens of the buffer after an overlap restart. -/
theorem pySplit_overlap_restart (buf s : PyStr) :
    pySplit (joinWords ((pySplit buf).rtake 200) ++ ' ' :: s)
      = (pySplit buf).rtake 200 ++ pySplit s := by
  rw [pySplit_append_word, pySplit_joinWords (tokens_of_rtake pySplit_tokens)]

/-- Simulation: the character-level sentence loop of
`_intelligent_chunking` computes, word-for-word, the algorithm of the
spec (`chunkerSpecLoop`) on the sentences' token lists. -/
theorem chunkLoop_sim :
    ∀ (ss : List PyStr) (buf : PyStr) (size : Nat) (acc : List Chunk),
      (∀ s ∈ ss, pySplit s ≠ []) →
      (buf = [] ↔ pySplit buf = []) →
      size = (pySplit buf).length →
      (chunkLoop ss buf size acc).map toW
        = acc.map toW ++ chunkerSpecLoop 1000 200 (ss.map pySplit) (pySplit buf) := by
  intro ss
  induction ss with
  | nil =>
    intro buf size acc _ hiff hsize
    by_cases hb : pyStrip buf = []
    · have hw : pySplit buf = [] := pyStrip_eq_nil_iff_pySplit.mp hb
      simp [chunkLoop, chunkerSpecLoop, hb, hw]
    · have hw : pySplit buf ≠ [] := fun h => hb (pyStrip_eq_nil_iff_pySplit.mpr h)
      simp [chunkLoop, chunkerSpecLoop, hb, hw, toW, pySplit_pyStrip, hsize]
  | cons s rest ih =>
    intro buf size acc hss hiff hsize
    have hs : pySplit s ≠ [] := hss s (by simp)
    have hrest : ∀ x ∈ rest, pySplit x ≠ [] := fun x hx => hss x (by simp [hx])
    by_cases hcond : size + (pySplit s).length > 1000 ∧ buf ≠ []
    · obtain ⟨hc1, hc2⟩ := hcond
      have hwc1 : (pySplit buf).length + (pySplit s).length > 1000 := by omega
      have hwc2 : pySplit buf ≠ [] := fun h => hc2 (hiff.mpr h)
      have hstep : chunkLoop (s :: rest) buf size acc
          = chunkLoop rest (joinWords ((pySplit buf).rtake 200) ++ ' ' :: s)
              (pySplit (joinWords ((pySplit buf).rtake 200) ++ ' ' :: s)).length
              (acc ++ [⟨pyStrip buf, ChunkType.semantic, size⟩]) := by
        simp [chunkLoop, hc1, hc2]
      have hiff2 : (joinWords ((pySplit buf).rtake 200) ++ ' ' :: s) = []
          ↔ pySplit (joinWords ((pySplit buf).rtake 200) ++ ' ' :: s) = [] := by
        constructor
        · intro h
          exact absurd h (by simp)
        · intro h
          rw [pySplit_overlap_restart] at h
          exact absurd (List.append_eq_nil.mp h).2 hs
      have hspec : chunkerSpecLoop 1000 200 ((s :: rest).map pySplit) (pySplit buf)
          = (pySplit buf, ChunkType.semantic)
              :: chunkerSpecLoop 1000 200 (rest.map pySplit)
                  ((pySplit buf).rtake 200 ++ pySplit s) := by
        simp [chunkerSpecLoop, hwc1, hwc2]
      rw [hstep, ih _ _ _ hrest hiff2 rfl, hspec]
      simp [toW, pySplit_pyStrip, pySplit_overlap_restart]
    · have hwcond : ¬ ((pySplit buf).length + (pySplit s).length > 1000 ∧ pySplit buf ≠ []) := by
        intro h
        obtain ⟨h1, h2⟩ := h
        exact hcond ⟨by omega, fun hb => h2 (hiff.mp hb)⟩
      have hstep : chunkLoop (s :: rest) buf size acc
          = chunkLoop rest (buf ++ ' ' :: s) (size + (pySplit s).length) acc := by
        simp [chunkLoop, hcond]
      have hiff2 : (buf ++ ' ' :: s = []) ↔ pySplit (buf ++ ' ' :: s) = [] := by
        constructor
        · intro h
          exact absurd h (by simp)
        · intro h
          rw [pySplit_append_word] at h
          exact absurd (List.append_eq_nil.mp h).2 hs
      have hsize2 : size + (pySplit s).length = (pySplit (buf ++ ' ' :: s)).length := by
        rw [pySplit_append_word, List.length_append, hsize]
      have hspec : chunkerSpecLoop 1000 200 ((s :: rest).map pySplit) (pySplit buf)
          = chunkerSpecLoop 1000 200 (rest.map pySplit) (pySplit buf ++ pySplit s) := by
        simp [chunkerSpecLoop, hwcond]
      rw [hstep, ih _ _ _ hrest hiff2 hsize2, hspec, pySplit_append_word]

/-- The first chunk produced from a buffer state extends that buffer. -/
theorem chunkerSpecLoop_head_ext (t o : Nat) :
    ∀ (ss : List (List PyStr)) (buf : List PyStr) (c : List PyStr × ChunkType)
      (cs : List (List PyStr × ChunkType)),
      chunkerSpecLoop t o ss buf = c :: cs → ∃ ext, c.1 = buf ++ ext := by
  intro ss
  induction ss with
  | nil =>
    intro buf c cs h
    by_cases hb : buf ≠ []
    · simp only [chunkerSpecLoop, if_pos hb] at h
      injection h with h1 h2
      exact ⟨[], by simp [← h1]⟩
    · simp [chunkerSpecLoop, hb] at h
  | cons s rest ih =>
    intro buf c cs h
    by_cases hcond : buf.length + s.length > t ∧ buf ≠ []
    · simp only [chunkerSpecLoop, if_pos hcond] at h
      injection h with h1 h2
      exact ⟨[], by simp [← h1]⟩
    · simp only [chunkerSpecLoop, if_neg hcond] at h
      rcases ih (buf ++ s) c cs h with ⟨ext, hext⟩
      exact ⟨s ++ ext, by simp [hext]⟩

/-- Along the spec chunker's output, every chunk after the first begins
with the trailing `o` words of its predecessor. -/
theorem chunkerSpecLoop_chain (t o : Nat) :
    ∀ (ss : List (List PyStr)) (buf : List PyStr),
      List.Chain' (fun a b => (a.1.rtake o) <+: b.1) (chunkerSpecLoop t o ss buf) := by
  intro ss
  induction ss with
  | nil =>
    intro buf
    by_cases hb : buf ≠ [] <;> simp [chunkerSpecLoop, hb]
  | cons s rest ih =>
    intro buf
    by_cases hcond : buf.length + s.length > t ∧ buf ≠ []
    · simp only [chunkerSpecLoop, if_pos hcond]
      rw [List.chain'_cons']
      refine ⟨?_, ih _⟩
      intro y hy
      rcases hh : chunkerSpecLoop t o rest (buf.rtake o ++ s) with _ | ⟨c, cs⟩
      · simp [hh] at hy
      · simp [hh] at hy
        rcases chunkerSpecLoop_head_ext t o rest (buf.rtake o ++ s) c cs hh with ⟨ext, hext⟩
        subst hy
        exact ⟨s ++ ext, by simp [hext]⟩
    · simp only [chunkerSpecLoop, if_neg hcond]
      exact ih _

/-- Reconstruction invariant: concatenating the spec chunker's chunk word
lists, dropping each chunk's overlap prefix (relative to its
predecessor, `prev` for the first), yields the unconsumed buffer suffix
followed by all remaining sentence words in order. -/
theorem chunkerSpecLoop_joinDrop (t o : Nat) :
    ∀ (ss : List (List PyStr)) (buf prev : List PyStr),
      (prev.rtake o).length ≤ buf.length →
      joinDropFrom o prev ((chunkerSpecLoop t o ss buf).map Prod.fst)
        = buf.drop (prev.rtake o).length ++ ss.flatten := by
  intro ss
  induction ss with
  | nil =>
    intro buf prev hk
    by_cases hb : buf ≠ []
    · simp [chunkerSpecLoop, hb, joinDropFrom]
    · simp only [ne_eq, not_not] at hb
      subst hb
      simp [chunkerSpecLoop, joinDropFrom]
  | cons s rest ih =>
    intro buf prev hk
    by_cases hcond : buf.length + s.length > t ∧ buf ≠ []
    · simp only [chunkerSpecLoop, if_pos hcond, List.map_cons]
      rw [joinDropFrom]
      have hih := ih (buf.rtake o ++ s) buf (by simp)
      rw [hih, List.drop_left]
      simp [List.append_assoc]
    · simp only [chunkerSpecLoop, if_neg hcond]
      rw [ih (buf ++ s) prev (le_trans hk (by simp))]
      rw [List.drop_append_of_le_length hk]
      simp [List.append_assoc]

/-! ## Embedding-layer lemmas -/

theorem batchesAux_flatten {α : Type} {bs : Nat} (hbs : 0 < bs) :
    ∀ (fuel : Nat) (l : List α), l.length ≤ fuel → (batchesAux bs fuel l).flatten = l := by
  intro fuel
  induction fuel with
  | zero =>
    intro l hl
    rcases l with _ | ⟨x, xs⟩
    · rfl
    · simp at hl
  | succ fuel ih =>
    intro l hl
    rcases l with _ | ⟨x, xs⟩
    · rfl
    · have hbs2 : bs ≠ 0 := Nat.pos_iff_ne_zero.mp hbs
      obtain ⟨m, rfl⟩ : ∃ m, bs = m + 1 := ⟨bs - 1, by omega⟩
      have hfuel : (xs.drop m).length ≤ fuel := by
        simp only [List.length_cons] at hl
        simp only [List.length_drop]
        omega
      simp only [batchesAux, hbs2, if_false, List.flatten_cons, Nat.add_sub_cancel]
      rw [ih (xs.drop m) hfuel]
      rw [List.take_succ_cons, List.cons_append, List.take_append_drop]

/-- Slicing into batches and flattening recovers the input list. -/
theorem batches_flatten {α : Type} {bs : Nat} (hbs : 0 < bs) (l : List α) :
    (batches bs l).flatten = l :=
  batchesAux_flatten hbs l.length l le_rfl

theorem splitHits_uncached_miss (env : Env) (g : PyStr → Option (List Int)) :
    ∀ (ts : List PyStr) (i : Nat), ∀ u ∈ (splitHits env g ts i).2.1,
      cacheHit g (embKey env u) = none := by
  intro ts
  induction ts with
  | nil => intro i u hu; simp [splitHits] at hu
  | cons t ts ih =>
    intro i u hu
    rcases hh : cacheHit g (embKey env t) with _ | v
    · simp only [splitHits, hh] at hu
      rcases List.mem_cons.mp hu with rfl | h2
      · exact hh
      · exact ih (i + 1) u h2
    · simp only [splitHits, hh] at hu
      exact ih (i + 1) u hu

theorem splitHits_uncached_of_miss (env : Env) (g : PyStr → Option (List Int)) :
    ∀ (ts : List PyStr) (i : Nat) (t : PyStr), t ∈ ts →
      cacheHit g (embKey env t) = none → t ∈ (splitHits env g ts i).2.1 := by
  intro ts
  induction ts with
  | nil => intro i t ht; cases ht
  | cons x ts ih =>
    intro i t ht hmiss
    rcases hh : cacheHit g (embKey env x) with _ | v
    · rcases List.mem_cons.mp ht with rfl | h2
      · simp [splitHits, hh]
      · simp only [splitHits, hh]
        exact List.mem_cons_of_mem x (ih (i + 1) t h2 hmiss)
    · rcases List.mem_cons.mp ht with rfl | h2
      · rw [hh] at hmiss; cases hmiss
      · simp only [splitHits, hh]
        exact ih (i + 1) t h2 hmiss

theorem splitHits_len (env : Env) (g : PyStr → Option (List Int)) :
    ∀ (ts : List PyStr) (i : Nat),
      (splitHits env g ts i).2.1.length = (splitHits env g ts i).2.2.length := by
  intro ts
  induction ts with
  | nil => intro i; rfl
  | cons t ts ih =>
    intro i
    rcases hh : cacheHit g (embKey env t) with _ | v <;>
      simp [splitHits, hh, ih (i + 1)]

theorem splitHits_cached_mem (env : Env) (g : PyStr → Option (List Int)) :
    ∀ (ts : List PyStr) (i k : Nat) (t : PyStr) (v : List Int),
      ts.get? k = some t → cacheHit g (embKey env t) = some v →
      (i + k, v) ∈ (splitHits env g ts i).1 := by
  intro ts
  induction ts with
  | nil => intro i k t v hk; simp at hk
  | cons x ts ih =>
    intro i k t v hk hhit
    rcases k with _ | k
    · simp only [List.get?] at hk
      injection hk with hk
      subst hk
      simp [splitHits, hhit]
    · simp only [List.get?] at hk
      have hmem := ih (i + 1) k t v hk hhit
      rcases hh : cacheHit g (embKey env x) with _ | v2 <;>
        simp only [splitHits, hh]
      · simpa [Nat.add_assoc, Nat.add_comm 1 k] using hmem
      · refine List.mem_cons_of_mem _ ?_
        simpa [Nat.add_assoc, Nat.add_comm 1 k] using hmem

theorem splitHits_cached_lb (env : Env) (g : PyStr → Option (List Int)) :
    ∀ (ts : List PyStr) (i : Nat), ∀ p ∈ (splitHits env g ts i).1, i ≤ p.1 := by
  intro ts
  induction ts with
  | nil => intro i p hp; simp [splitHits] at hp
  | cons t ts ih =>
    intro i p hp
    rcases hh : cacheHit g (embKey env t) with _ | v
    · simp only [splitHits, hh] at hp
      exact le_trans (by omega) (ih (i + 1) p hp)
    · simp only [splitHits, hh] at hp
      rcases List.mem_cons.mp hp with rfl | h2
      · exact le_rfl
      · exact le_trans (by omega) (ih (i + 1) p h2)

theorem splitHits_cached_pairwise (env : Env) (g : PyStr → Option (List Int)) :
    ∀ (ts : List PyStr) (i : Nat),
      List.Pairwise (fun a b => a.1 < b.1) (splitHits env g ts i).1 := by
  intro ts
  induction ts with
  | nil => intro i; simp [splitHits]
  | cons t ts ih =>
    intro i
    rcases hh : cacheHit g (embKey env t) with _ | v
    · simp only [splitHits, hh]
      exact ih (i + 1)
    · simp only [splitHits, hh]
      refine List.Pairwise.cons ?_ (ih (i + 1))
      intro p hp
      have := splitHits_cached_lb env g ts (i + 1) p hp
      simpa using lt_of_lt_of_le (by omega) this

theorem foldl_set_length {α β : Type} (upd : β → α) :
    ∀ (l : List (Nat × β)) (es : List α),
      (l.foldl (fun es p => es.set p.1 (upd p.2)) es).length = es.length := by
  intro l
  induction l with
  | nil => intro es; rfl
  | cons p l ih =>
    intro es
    simp [List.foldl_cons, ih, List.length_set]

theorem foldl_set_get?_untouched {α β : Type} (upd : β → α) :
    ∀ (l : List (Nat × β)) (es : List α) (k : Nat), (∀ p ∈ l, p.1 ≠ k) →
      (l.foldl (fun es p => es.set p.1 (upd p.2)) es).get? k = es.get? k := by
  intro l
  induction l with
  | nil => intro es k _; rfl
  | cons p l ih =>
    intro es k hne
    have h1 : p.1 ≠ k := hne p (by simp)
    rw [List.foldl_cons, ih _ k (fun q hq => hne q (by simp [hq])),
        List.get?_set_ne _ _ h1]

theorem foldl_set_get?_mem {α β : Type} (upd : β → α) :
    ∀ (l : List (Nat × β)) (es : List α) (k : Nat) (v : β),
      List.Pairwise (fun a b => a.1 < b.1) l → (k, v) ∈ l → k < es.length →
      (l.foldl (fun es p => es.set p.1 (upd p.2)) es).get? k = some (upd v) := by
  intro l
  induction l with
  | nil => intro es k v _ hmem; cases hmem
  | cons p l ih =>
    intro es k v hpw hmem hk
    rcases List.mem_cons.mp hmem with rfl | h2
    · rw [List.foldl_cons]
      have hrest : ∀ q ∈ l, q.1 ≠ k := by
        intro q hq
        have := (List.pairwise_cons.mp hpw).1 q hq
        omega
      rw [foldl_set_get?_untouched upd l _ k hrest]
      have hsome : es.get? k = some (es.get ⟨k, hk⟩) := List.get?_eq_get hk
      rw [List.get?_set_eq, hsome]
      rfl
    · rw [List.foldl_cons]
      exact ih _ k v (List.pairwise_cons.mp hpw).2 h2 (by simp [List.length_set, hk])

theorem zip_get?_some {α β : Type} :
    ∀ (l : List α) (l2 : List β) (i : Nat) (a : α) (b : β),
      l.get? i = some a → l2.get? i = some b → (l.zip l2).get? i = some (a, b) := by
  intro l
  induction l with
  | nil => intro l2 i a b h; simp at h
  | cons x xs ih =>
    intro l2 i a b h1 h2
    rcases l2 with _ | ⟨y, ys⟩
    · simp at h2
    · rcases i with _ | i
      · simp only [List.get?] at h1 h2
        injection h1 with h1
        injection h2 with h2
        simp [List.zip_cons_cons, h1, h2]
      · simp only [List.get?] at h1 h2
        simpa [List.zip_cons_cons] using ih ys i a b h1 h2

theorem foldl_preserve_length {α γ : Type} (f : List α → γ → List α)
    (hf : ∀ (es : List α) (p : γ), (f es p).length = es.length) :
    ∀ (l : List γ) (es : List α), (l.foldl f es).length = es.length := by
  intro l
  induction l with
  | nil => intro es; rfl
  | cons p l ih => intro es; rw [List.foldl_cons, ih, hf]

theorem generate_embeddings_length (env : Env) (g : PyStr → Option (List Int))
    (chunks : List Chunk) :
    (generate_embeddings env g chunks).embeddings.length = chunks.length := by
  show ((cachedPairs env g (chunks.map (fun c => c.text))).foldl
      (fun es p => es.set p.1 (PyEmb.plist p.2))
      ((tripOf env g (chunks.map (fun c => c.text))).foldl
        (fun es p => es.set p.2 (PyEmb.arr p.1.2))
        (List.replicate (chunks.map (fun c => c.text)).length PyEmb.pynone))).length
    = chunks.length
  rw [foldl_preserve_length
        (fun (es : List PyEmb) (p : Nat × List Int) => es.set p.1 (PyEmb.plist p.2))
        (fun es p => List.length_set es p.1 _),
      foldl_preserve_length
        (fun (es : List PyEmb) (p : (PyStr × List Int) × Nat) => es.set p.2 (PyEmb.arr p.1.2))
        (fun es p => List.length_set es p.2 _),
      List.length_replicate, List.length_map]

/-- A cache hit at chunk position `k` ends up as a `plist` (a plain
deserialized list) at position `k` of the embedding list. -/
theorem generate_embeddings_hit_get? (env : Env) (g : PyStr → Option (List Int))
    (chunks : List Chunk) (k : Nat) (t : PyStr) (v : List Int)
    (ht : (chunks.map (fun c => c.text)).get? k = some t)
    (hhit : cacheHit g (embKey env t) = some v) :
    (generate_embeddings env g chunks).embeddings.get? k = some (PyEmb.plist v) := by
  have hmem : (k, v) ∈ cachedPairs env g (chunks.map (fun c => c.text)) := by
    simpa [cachedPairs] using
      splitHits_cached_mem env g (chunks.map (fun c => c.text)) 0 k t v ht hhit
  have hk : k < (chunks.map (fun c => c.text)).length := by
    rcases List.get?_eq_some.mp ht with ⟨h, _⟩
    exact h
  show ((cachedPairs env g (chunks.map (fun c => c.text))).foldl
      (fun es p => es.set p.1 (PyEmb.plist p.2))
      ((tripOf env g (chunks.map (fun c => c.text))).foldl
        (fun es p => es.set p.2 (PyEmb.arr p.1.2))
        (List.replicate (chunks.map (fun c => c.text)).length PyEmb.pynone))).get? k
    = some (PyEmb.plist v)
  refine foldl_set_get?_mem (fun v => PyEmb.plist v) _ _ k v
    (splitHits_cached_pairwise env g _ 0) hmem ?_
  rw [foldl_preserve_length
        (fun (es : List PyEmb) (p : (PyStr × List Int) × Nat) => es.set p.2 (PyEmb.arr p.1.2))
        (fun es p => List.length_set es p.2 _),
      List.length_replicate]
  exact hk

/-- The flattened encoder call trace is exactly the uncached text list. -/
theorem encoderCalls_flatten (env : Env) (g : PyStr → Option (List Int))
    (texts : List PyStr) (hbs : 0 < env.batchSize) :
    (encoderCallsOf env g texts).flatten = uncachedTexts env g texts := by
  unfold encoderCallsOf
  by_cases h : uncachedTexts env g texts = []
  · rw [if_pos h, h]; rfl
  · rw [if_neg h]; exact batches_flatten hbs _

theorem flatten_map_length_eq {α β : Type} (f : List α → List β)
    (hlaw : ∀ l, (f l).length = l.length) :
    ∀ (ls : List (List α)), (ls.map f).flatten.length = ls.flatten.length := by
  intro ls
  induction ls with
  | nil => rfl
  | cons x xs ih => simp [hlaw, ih]

theorem newEmbs_length (env : Env) (g : PyStr → Option (List Int))
    (texts : List PyStr) (hbs : 0 < env.batchSize)
    (hlaw : ∀ l, (env.encode l).length = l.length) :
    (newEmbsOf env g texts).length = (uncachedTexts env g texts).length := by
  unfold newEmbsOf
  rw [flatten_map_length_eq env.encode hlaw, encoderCalls_flatten env g texts hbs]

theorem map_fst_zip_comp {α β γ : Type} (f : α → γ) :
    ∀ (l : List α) (l2 : List β), l.length ≤ l2.length →
      (l.zip l2).map (fun p => f p.1) = l.map f := by
  intro l
  induction l with
  | nil => intro l2 _; rfl
  | cons x xs ih =>
    intro l2 h
    rcases l2 with _ | ⟨y, ys⟩
    · simp at h
    · simp only [List.zip_cons_cons, List.map_cons]
      rw [ih ys (by simpa using h)]

/-- Key and TTL of the cache writes: one write per uncached text, in
order, under that text's hash key with TTL 86400 (one day). -/
theorem tripOf_map_key_ttl (env : Env) (g : PyStr → Option (List Int))
    (texts : List PyStr) (hbs : 0 < env.batchSize)
    (hlaw : ∀ l, (env.encode l).length = l.length) :
    (tripOf env g texts).map (fun p => (embKey env p.1.1, (86400 : Nat)))
      = (uncachedTexts env g texts).map (fun t => (embKey env t, (86400 : Nat))) := by
  have hnew : (newEmbsOf env g texts).length = (uncachedTexts env g texts).length :=
    newEmbs_length env g texts hbs hlaw
  have hlen1 : ((uncachedTexts env g texts).zip (newEmbsOf env g texts)).length
      = (uncachedTexts env g texts).length := by
    rw [List.length_zip, hnew, Nat.min_self]
  have hlen2 : ((uncachedTexts env g texts).zip (newEmbsOf env g texts)).length
      ≤ (uncachedIdx env g texts).length := by
    rw [hlen1]
    rw [show (uncachedIdx env g texts).length = (uncachedTexts env g texts).length from
      (splitHits_len env g texts 0).symm]
  calc (tripOf env g texts).map (fun p => (embKey env p.1.1, (86400 : Nat)))
      = ((uncachedTexts env g texts).zip (newEmbsOf env g texts)).map
          (fun q => (embKey env q.1, (86400 : Nat))) :=
        map_fst_zip_comp (fun q : PyStr × List Int => (embKey env q.1, (86400 : Nat)))
          _ _ hlen2
    _ = (uncachedTexts env g texts).map (fun t => (embKey env t, (86400 : Nat))) :=
        map_fst_zip_comp (fun t : PyStr => (embKey env t, (86400 : Nat)))
          _ _ (le_of_eq hnew.symm)

/-- Every cache write of `_generate_embeddings` carries the hash key of
one uncached text and TTL 86400. -/
theorem generate_embeddings_writes_map (env : Env) (g : PyStr → Option (List Int))
    (chunks : List Chunk) (hbs : 0 < env.batchSize)
    (hlaw : ∀ l, (env.encode l).length = l.length) :
    (generate_embeddings env g chunks).cacheWrites.map (fun w => (w.1, w.2.2))
      = (uncachedTexts env g (chunks.map (fun c => c.text))).map
          (fun t => (embKey env t, (86400 : Nat))) := by
  show ((tripOf env g (chunks.map (fun c => c.text))).map
      (fun p => (embKey env p.1.1, p.1.2, 86400))).map (fun w => (w.1, w.2.2))
    = (uncachedTexts env g (chunks.map (fun c => c.text))).map
        (fun t => (embKey env t, (86400 : Nat)))
  rw [List.map_map]
  exact tripOf_map_key_ttl env g (chunks.map (fun c => c.text)) hbs hlaw

/-! ## PDF extraction lemmas -/

theorem pdfPagesText_all_some : ∀ ts : List PyStr,
    pdfPagesText (ts.map some) = some (ts.foldr (fun t acc => t ++ '\n' :: acc) []) := by
  intro ts
  induction ts with
  | nil => rfl
  | cons t ts ih => simp [pdfPagesText, ih]

theorem pdfPagesText_none : ∀ pages : List (Option PyStr),
    none ∈ pages → pdfPagesText pages = none := by
  intro pages
  induction pages with
  | nil => intro h; cases h
  | cons p ps ih =>
    intro h
    rcases List.mem_cons.mp h with rfl | h2
    · rfl
    · rcases p with _ | t
      · rfl
      · simp [pdfPagesText, ih h2]

/-! ## Document-assembly lemmas -/

theorem buildDocs_none_of_get? (md : Metadata) (f : PyStr) :
    ∀ (l : List (Chunk × PyEmb)) (i k : Nat) (ch : Chunk) (e : PyEmb),
      l.get? k = some (ch, e) → tolist e = none → buildDocs md f l i = none := by
  intro l
  induction l with
  | nil => intro i k ch e h; simp at h
  | cons p l ih =>
    intro i k ch e hk htol
    rcases p with ⟨ch2, e2⟩
    rcases k with _ | k
    · simp only [List.get?] at hk
      injection hk with hk
      cases hk
      simp [buildDocs, htol]
    · simp only [List.get?] at hk
      have hrec := ih (i + 1) k ch e hk htol
      rcases htl : tolist e2 with _ | v <;> simp [buildDocs, htl, hrec]

theorem buildDocs_some_spec (md : Metadata) (f : PyStr) :
    ∀ (l : List (Chunk × PyEmb)) (i : Nat) (ds : List StorableDoc),
      buildDocs md f l i = some ds →
      ds.length = l.length ∧
      ds.map (fun d => d.chunk_index) = List.range' i l.length ∧
      ds.map (fun d => d.id)
        = (List.range' i l.length).map (fun j => md.file_hash ++ '_' :: natStr j) ∧
      ds.map (fun d => d.text) = l.map (fun p => p.1.text) := by
  intro l
  induction l with
  | nil =>
    intro i ds h
    simp only [buildDocs, Option.some.injEq] at h
    subst h
    simp
  | cons p l ih =>
    intro i ds h
    rcases p with ⟨ch, e⟩
    rcases htl : tolist e with _ | v
    · simp [buildDocs, htl] at h
    · rcases hrec : buildDocs md f l (i + 1) with _ | ds2
      · simp [buildDocs, htl, hrec] at h
      · simp only [buildDocs, htl, hrec, Option.some.injEq] at h
        subst h
        obtain ⟨h1, h2, h3, h4⟩ := ih (i + 1) ds2 hrec
        refine ⟨by simp [h1], ?_, ?_, by simp [h4]⟩
        · simp only [List.length_cons, List.range'_succ, List.map_cons, h2]
        · simp only [List.length_cons, List.range'_succ, List.map_cons, h3]

theorem buildDocs_some_tolist (md : Metadata) (f : PyStr) :
    ∀ (l : List (Chunk × PyEmb)) (i : Nat) (ds : List StorableDoc),
      buildDocs md f l i = some ds → ∀ p ∈ l, tolist p.2 ≠ none := by
  intro l
  induction l with
  | nil => intro i ds _ p hp; cases hp
  | cons q l ih =>
    intro i ds h p hp
    rcases q with ⟨ch, e⟩
    rcases htl : tolist e with _ | v
    · simp [buildDocs, htl] at h
    · rcases hrec : buildDocs md f l (i + 1) with _ | ds2
      · simp [buildDocs, htl, hrec] at h
      · rcases List.mem_cons.mp hp with rfl | h2
        · simp [htl]
        · exact ih (i + 1) ds2 hrec p h2

theorem splitHits_uncached_sub (env : Env) (g : PyStr → Option (List Int)) :
    ∀ (ts : List PyStr) (i : Nat), ∀ u ∈ (splitHits env g ts i).2.1, u ∈ ts := by
  intro ts
  induction ts with
  | nil => intro i u hu; simp [splitHits] at hu
  | cons t ts ih =>
    intro i u hu
    rcases hh : cacheHit g (embKey env t) with _ | v
    · simp only [splitHits, hh] at hu
      rcases List.mem_cons.mp hu with rfl | h2
      · simp
      · exact List.mem_cons_of_mem t (ih (i + 1) u h2)
    · simp only [splitHits, hh] at hu
      exact List.mem_cons_of_mem t (ih (i + 1) u hu)

/-! ## Claim C4: validation order, short-circuit, size boundary -/

/-- C4: security validation runs size limit, extension allow-list,
MIME-vs-extension (only when a mapping exists), then the
suspicious-pattern scan, in this order, returning unsafe with exactly
the first failing check's reason and performing no later check (failures
before the MIME sniff are independent of the MIME oracle); a file whose
length equals the configured maximum passes the size check, one byte more
fails it. -/
theorem C4_validation_order_and_boundary (maxFileSize : Nat)
    (magicMime : PyBytes → PyStr) (content : PyBytes) (filename : PyStr) :
    (content.length > maxFileSize →
      ∀ mm : PyBytes → PyStr, securityValidation maxFileSize mm content filename
        = ⟨false, [("file_size".toList,
            "File too large: ".toList ++ natStr content.length ++ " bytes".toList)]⟩) ∧
    (content.length ≤ maxFileSize → pathSuffix filename ∉ supported_formats →
      ∀ mm : PyBytes → PyStr, securityValidation maxFileSize mm content filename
        = ⟨false, [("extension".toList,
            "Unsupported file type: ".toList ++ pathSuffix filename)]⟩) ∧
    (content.length ≤ maxFileSize → pathSuffix filename ∈ supported_formats →
      ∀ m, expected_mimes.lookup (pathSuffix filename) = some m →
        magicMime content ≠ m →
        securityValidation maxFileSize magicMime content filename
          = ⟨false, [("mime_type".toList,
              "MIME mismatch: expected ".toList ++ m ++ ", got ".toList
                ++ magicMime content)]⟩) ∧
    (content.length ≤ maxFileSize → pathSuffix filename ∈ supported_formats →
      (expected_mimes.lookup (pathSuffix filename) = none ∨
        (∃ m, expected_mimes.lookup (pathSuffix filename) = some m ∧
          magicMime content = m)) →
      detect_malicious_content content = true →
      securityValidation maxFileSize magicMime content filename
        = ⟨false, [("virus_scan".toList, "passed".toList),
                   ("malicious_content".toList,
                    "Potential malicious content detected".toList)]⟩) ∧
    (content.length ≤ maxFileSize → pathSuffix filename ∈ supported_formats →
      (expected_mimes.lookup (pathSuffix filename) = none ∨
        (∃ m, expected_mimes.lookup (pathSuffix filename) = some m ∧
          magicMime content = m)) →
      detect_malicious_content content = false →
      securityValidation maxFileSize magicMime content filename
        = ⟨true, [("virus_scan".toList, "passed".toList),
                  ("security".toList, "passed".toList)]⟩) := by
  refine ⟨?_, ?_, ?_, ?_, ?_⟩
  · intro h mm
    simp [securityValidation, h]
  · intro h1 h2 mm
    simp [securityValidation, Nat.not_lt.mpr h1, h2]
  · intro h1 h2 m hm hmime
    simp [securityValidation, Nat.not_lt.mpr h1, h2, hm, hmime]
  · intro h1 h2 hmap hmal
    rcases hmap with hm | ⟨m, hm, hmime⟩
    · simp [securityValidation, Nat.not_lt.mpr h1, h2, hm, postMimeChecks, hmal]
    · simp [securityValidation, Nat.not_lt.mpr h1, h2, hm, hmime, postMimeChecks, hmal]
  · intro h1 h2 hmap hmal
    rcases hmap with hm | ⟨m, hm, hmime⟩
    · simp [securityValidation, Nat.not_lt.mpr h1, h2, hm, postMimeChecks, hmal]
    · simp [securityValidation, Nat.not_lt.mpr h1, h2, hm, hmime, postMimeChecks, hmal]

/-- Witness for C4 at concrete inputs: every branch of the theorem
exercised once, including both sides of the size boundary. -/
theorem C4_witness :
    securityValidation 3 (fun _ => "junk".toList) [0, 0, 0, 0] "a.txt".toList
      = ⟨false, [("file_size".toList, "File too large: 4 bytes".toList)]⟩ ∧
    securityValidation 3 (fun _ => "junk".toList) [0, 0, 0] "a.zip".toList
      = ⟨false, [("extension".toList, "Unsupported file type: .zip".toList)]⟩ ∧
    securityValidation 3 (fun _ => "text/html".toList) [0, 0, 0] "a.txt".toList
      = ⟨false, [("mime_type".toList,
          "MIME mismatch: expected text/plain, got text/html".toList)]⟩ ∧
    securityValidation 100 (fun _ => "text/plain".toList)
        ("eval(x)".toList.map Char.toNat) "a.txt".toList
      = ⟨false, [("virus_scan".toList, "passed".toList),
                 ("malicious_content".toList,
                  "Potential malicious content detected".toList)]⟩ ∧
    securityValidation 3 (fun _ => "text/plain".toList) [0, 0, 0] "a.txt".toList
      = ⟨true, [("virus_scan".toList, "passed".toList),
                ("security".toList, "passed".toList)]⟩ := by
  refine ⟨?_, ?_, ?_, ?_, ?_⟩
  · exact ((C4_validation_order_and_boundary 3 (fun _ => "junk".toList)
      [0, 0, 0, 0] "a.txt".toList).1 (by decide) _).trans (by decide)
  · exact ((C4_validation_order_and_boundary 3 (fun _ => "junk".toList)
      [0, 0, 0] "a.zip".toList).2.1 (by decide) (by decide) _).trans (by decide)
  · exact ((C4_validation_order_and_boundary 3 (fun _ => "text/html".toList)
      [0, 0, 0] "a.txt".toList).2.2.1 (by decide) (by decide)
      ("text/plain".toList) (by decide) (by decide)).trans (by decide)
  · exact ((C4_validation_order_and_boundary 100 (fun _ => "text/plain".toList)
      ("eval(x)".toList.map Char.toNat) "a.txt".toList).2.2.2.1 (by decide) (by decide)
      (Or.inr ⟨"text/plain".toList, by decide, by decide⟩) (by decide)).trans (by decide)
  · exact ((C4_validation_order_and_boundary 3 (fun _ => "text/plain".toList)
      [0, 0, 0] "a.txt".toList).2.2.2.2 (by decide) (by decide)
      (Or.inr ⟨"text/plain".toList, by decide, by decide⟩) (by decide)).trans (by decide)

/-! ## Claim C6: PDF per-page extraction -/

/-- C6 counterexample: a two-page PDF whose first page extraction raises.
The claim predicts the failing page contributes an empty string and the
second page survives (result "hello" after stripping); the code aborts the
whole document and returns the empty string. -/
theorem C6_counterexample :
    extract_pdf_text [none, some "hello".toList] = [] ∧
    extract_pdf_text [none, some "hello".toList] ≠ "hello".toList := by
  exact ⟨rfl, by decide⟩

/-- C6 amended: when every page extracts successfully the page texts are
concatenated with newline separators (and stripped); as soon as any page
extraction raises, the whole PDF extraction returns the empty string —
the remaining pages are not salvaged. -/
theorem C6_pdf_extraction (pages : List (Option PyStr)) :
    (∀ ts : List PyStr, pages = ts.map some →
      extract_pdf_text pages
        = pyStrip (ts.foldr (fun t acc => t ++ '\n' :: acc) [])) ∧
    (none ∈ pages → extract_pdf_text pages = []) := by
  constructor
  · intro ts hts
    subst hts
    rw [extract_pdf_text, pdfPagesText_all_some]
  · intro h
    rw [extract_pdf_text, pdfPagesText_none pages h]

/-- Witness for C6 at concrete inputs. -/
theorem C6_witness :
    extract_pdf_text [some "a".toList, some "b".toList] = "a\nb".toList ∧
    extract_pdf_text [some "a".toList, none] = [] := by
  constructor
  · exact ((C6_pdf_extraction [some "a".toList, some "b".toList]).1
      ["a".toList, "b".toList] rfl).trans (by decide)
  · exact (C6_pdf_extraction [some "a".toList, none]).2 (by decide)

/-! ## Claim C7: chunker edge cases -/

/-- C7: empty or whitespace-only input yields zero chunks regardless of
the sentence model, and a sentence-model failure on nonempty input yields
exactly one chunk holding the entire input text, tagged fallback. -/
theorem C7_chunker_edge_cases (sentsRes : Option (List PyStr)) (text : PyStr) :
    (pyStrip text = [] → intelligent_chunking sentsRes text = []) ∧
    (pyStrip text ≠ [] → intelligent_chunking none text
      = [⟨text, ChunkType.fallback, (pySplit text).length⟩]) := by
  constructor
  · intro h
    simp [intelligent_chunking, h]
  · intro h
    simp [intelligent_chunking, h]

/-- Witness for C7 at concrete inputs. -/
theorem C7_witness :
    intelligent_chunking (some ["ab".toList]) "  ".toList = [] ∧
    intelligent_chunking none "ab cd".toList
      = [⟨"ab cd".toList, ChunkType.fallback, 2⟩] := by
  constructor
  · exact (C7_chunker_edge_cases (some ["ab".toList]) "  ".toList).1 (by decide)
  · exact ((C7_chunker_edge_cases none "ab cd".toList).2 (by decide)).trans (by decide)

/-! ## Claim C9: fingerprint depends on bytes only -/

/-- C9: the document fingerprint is the SHA-256 digest of the raw bytes
alone; the filename (and user) have no influence on it. -/
theorem C9_fingerprint_filename_independent (env : Env) (content : PyBytes)
    (f1 f2 : PyStr) (u1 u2 : Option PyStr) :
    (generate_metadata env content f1 u1).file_hash = env.sha256hex content ∧
    (generate_metadata env content f1 u1).file_hash
      = (generate_metadata env content f2 u2).file_hash :=
  ⟨rfl, rfl⟩

/-! ## Concrete demonstration objects shared by several claims -/

/-- A small concrete environment: constant oracles, identity hashing of
texts, one-vector-per-text encoder, extraction always yielding "hi". -/
def envD : Env :=
  ⟨100, fun _ => "text/plain".toList, fun f => f, "T".toList, "d".toList,
   fun _ => "H".toList, fun t => t, fun t => some [t],
   fun l => l.map (fun _ => [1]), 64, fun _ _ => some "hi".toList⟩

/-- Benign two-byte upload content. -/
def bytesOk : PyBytes := "ok".toList.map Char.toNat

/-- Upload content containing the suspicious byte pattern. -/
def bytesBad : PyBytes := "x <script y".toList.map Char.toNat

/-- The metadata `envD` computes for `bytesOk` under filename `a.txt`. -/
def mdD : Metadata := generate_metadata envD bytesOk "a.txt".toList none

/-- The single storable document the pipeline assembles for `bytesOk`. -/
def docD : StorableDoc :=
  ⟨"H_0".toList, "hi".toList, [1], mdD, 0, ChunkType.semantic, 2, "a.txt".toList⟩

/-- A processing result sitting in the cache under the fingerprint of
`bytesBad`. -/
def cachedBadD : CachedResult :=
  ⟨[], generate_metadata envD bytesBad "a.txt".toList none, "T".toList⟩

/-- World with empty caches and succeeding storage. -/
def worldMiss : World := ⟨fun _ => none, fun _ => none, fun _ => true⟩

/-- World with empty caches and failing storage. -/
def worldStoreFail : World := ⟨fun _ => none, fun _ => none, fun _ => false⟩

/-- World whose processing-result cache holds `cachedBadD` under the
fingerprint key of `bytesBad`. -/
def worldCachedBad : World :=
  ⟨fun _ => none,
   fun k => if k = "document_processing:H".toList then some cachedBadD else none,
   fun _ => true⟩

/-- World whose processing-result cache holds the `bytesOk` result. -/
def worldCachedOk : World :=
  ⟨fun _ => none,
   fun k => if k = "document_processing:H".toList
     then some ⟨[docD], mdD, "T".toList⟩ else none,
   fun _ => true⟩

/-- World whose embedding cache holds a vector for the chunk text "hi". -/
def worldHit : World :=
  ⟨fun k => if k = "embedding:hi".toList then some [2] else none,
   fun _ => none, fun _ => true⟩

/-- A one-chunk list with text "hi". -/
def chunk1 : List Chunk := [⟨"hi".toList, ChunkType.semantic, 1⟩]

/-! ## Claim C1: no cached-result short-circuit -/

/-- C1 counterexample: the processing-result cache already holds an entry
for the fingerprint of `bytesBad`, yet `process_document` does not return
it — it re-runs validation and returns a security error (and no result of
`process_document` carries a cached flag at all). -/
theorem C1_counterexample :
    worldCachedBad.procGet (procKey (envD.sha256hex bytesBad)) = some cachedBadD ∧
    (process_document envD worldCachedBad bytesBad "a.txt".toList none).result
      = ProcResult.securityError ⟨false, [("virus_scan".toList, "passed".toList),
          ("malicious_content".toList,
           "Potential malicious content detected".toList)]⟩ := by
  exact ⟨by decide, by decide⟩

/-- C1 amended: `process_document` never consults the processing-result
cache — its whole output is independent of that cache's contents; it
re-runs the pipeline on every call; on success it writes the freshly
computed result under `document_processing:<fingerprint>` with TTL 86400,
and that entry is only served back by `get_processing_status`. -/
theorem C1_no_cache_short_circuit (env : Env)
    (eg : PyStr → Option (List Int)) (pg1 pg2 : PyStr → Option CachedResult)
    (so : List StorableDoc → Bool) (content : PyBytes) (filename : PyStr)
    (user : Option PyStr) :
    process_document env ⟨eg, pg1, so⟩ content filename user
      = process_document env ⟨eg, pg2, so⟩ content filename user ∧
    (∀ fileHash, get_processing_status ⟨eg, pg1, so⟩ fileHash = pg1 (procKey fileHash)) ∧
    (∀ n docs md st,
      (process_document env ⟨eg, pg1, so⟩ content filename user).result
        = ProcResult.success n docs md st →
      (process_document env ⟨eg, pg1, so⟩ content filename user).procWrites
        = [(procKey md.file_hash, ⟨docs, md, env.nowIso⟩, 86400)]) := by
  refine ⟨rfl, fun _ => rfl, ?_⟩
  intro n docs md st h
  by_cases hs : (securityValidation env.maxFileSize env.magicMime content filename).safe
      = false
  · simp [process_document, hs] at h
  · rcases hx : env.extractOracle content filename with _ | t
    · simp [process_document, hs, hx] at h
    · by_cases ht : t = []
      · simp [process_document, hs, hx, ht] at h
      · rcases hb : buildDocs (generate_metadata env content filename user) filename
            ((intelligent_chunking (env.sentSplit t) t).zip
              (generate_embeddings env eg
                (intelligent_chunking (env.sentSplit t) t)).embeddings) 0 with _ | ds
        · simp [process_document, hs, hx, ht, hb] at h
        · have hres : (process_document env ⟨eg, pg1, so⟩ content filename user).result
              = ProcResult.success ds.length ds
                  (generate_metadata env content filename user) (so ds) := by
            simp [process_document, hs, hx, ht, hb]
          rw [hres] at h
          injection h with h3 h4 h5 h6
          subst h4
          subst h5
          have hw : (process_document env ⟨eg, pg1, so⟩ content filename user).procWrites
              = [(procKey (generate_metadata env content filename user).file_hash,
                  ⟨ds, generate_metadata env content filename user, env.nowIso⟩,
                  86400)] := by
            simp [process_document, hs, hx, ht, hb]
          rw [hw]

/-- Witness for C1 at concrete inputs: a populated and an empty
processing-result cache give the same output, the status endpoint reads
the cache, and the success write carries the fingerprint key and TTL
86400. -/
theorem C1_witness :
    process_document envD ⟨worldMiss.embGet, worldCachedOk.procGet, worldMiss.storageOk⟩
        bytesOk "a.txt".toList none
      = process_document envD ⟨worldMiss.embGet, worldMiss.procGet, worldMiss.storageOk⟩
          bytesOk "a.txt".toList none ∧
    get_processing_status ⟨worldMiss.embGet, worldCachedOk.procGet, worldMiss.storageOk⟩
        "H".toList
      = worldCachedOk.procGet (procKey "H".toList) ∧
    (process_document envD ⟨worldMiss.embGet, worldCachedOk.procGet, worldMiss.storageOk⟩
        bytesOk "a.txt".toList none).procWrites
      = [(procKey mdD.file_hash, ⟨[docD], mdD, envD.nowIso⟩, 86400)] := by
  have h := C1_no_cache_short_circuit envD worldMiss.embGet worldCachedOk.procGet
    worldMiss.procGet worldMiss.storageOk bytesOk "a.txt".toList none
  exact ⟨h.1, h.2.1 "H".toList, h.2.2 1 [docD] mdD true (by decide)⟩

/-! ## Claim C3: storage failure does not fail ingestion -/

/-- C3 counterexample: the storage collaborator rejects the documents
(`add_documents` reports failure), yet `process_document` returns the
success result — no `StorageFailed` error, only `storage_qdrant = false`
recorded inside the success payload. -/
theorem C3_counterexample :
    worldStoreFail.storageOk [docD] = false ∧
    (process_document envD worldStoreFail bytesOk "a.txt".toList none).result
      = ProcResult.success 1 [docD] mdD false := by
  exact ⟨rfl, by decide⟩

/-- C3 amended: a storage failure does not fail the ingestion.  Whenever
the pipeline reaches the storage step, `process_document` returns the
success constructor, with the storage verdict merely recorded in its
`storage_qdrant` field; the verdict has no other influence on the
result. -/
theorem C3_storage_failure_ignored (env : Env) (w : World) (content : PyBytes)
    (filename : PyStr) (user : Option PyStr) (t : PyStr) (docs : List StorableDoc)
    (hsafe : (securityValidation env.maxFileSize env.magicMime content filename).safe
      = true)
    (hext : env.extractOracle content filename = some t) (hne : t ≠ [])
    (hdocs : buildDocs (generate_metadata env content filename user) filename
        ((intelligent_chunking (env.sentSplit t) t).zip
          (generate_embeddings env w.embGet
            (intelligent_chunking (env.sentSplit t) t)).embeddings) 0
      = some docs) :
    (process_document env w content filename user).result
      = ProcResult.success docs.length docs
          (generate_metadata env content filename user) (w.storageOk docs) := by
  simp [process_document, hsafe, hext, hne, hdocs]

/-- Witness for C3 at concrete inputs: storage fails, ingestion still
returns success. -/
theorem C3_witness :
    (process_document envD worldStoreFail bytesOk "a.txt".toList none).result
      = ProcResult.success 1 [docD] mdD (worldStoreFail.storageOk [docD]) := by
  exact C3_storage_failure_ignored envD worldStoreFail bytesOk "a.txt".toList none
    "hi".toList [docD] (by decide) (by decide) (by decide) (by decide)

/-! ## Claim C10: a cache hit breaks document assembly -/

/-- C10: cached embeddings are deserialized plain lists, yet the assembly
step calls `.tolist()` on every embedding, which only numpy arrays
support.  Hence, once validation and extraction succeed, a cache hit for
any chunk text forces `process_document` into the error result
(`AttributeError` caught by the outer except), and a successful result
implies every chunk text missed the embedding cache. -/
theorem C10_cached_embedding_breaks_document (env : Env) (w : World)
    (content : PyBytes) (filename : PyStr) (user : Option PyStr) (t : PyStr)
    (hsafe : (securityValidation env.maxFileSize env.magicMime content filename).safe
      = true)
    (hext : env.extractOracle content filename = some t) (hne : t ≠ []) :
    ((∃ k tx v,
        ((intelligent_chunking (env.sentSplit t) t).map (fun c => c.text)).get? k
          = some tx ∧
        cacheHit w.embGet (embKey env tx) = some v) →
      (process_document env w content filename user).result
        = ProcResult.attributeError) ∧
    ((process_document env w content filename user).result.isSuccess = true →
      ∀ tx ∈ (intelligent_chunking (env.sentSplit t) t).map (fun c => c.text),
        cacheHit w.embGet (embKey env tx) = none) := by
  have hbuild : ∀ (k : Nat) (tx : PyStr) (v : List Int),
      ((intelligent_chunking (env.sentSplit t) t).map (fun c => c.text)).get? k
        = some tx →
      cacheHit w.embGet (embKey env tx) = some v →
      buildDocs (generate_metadata env content filename user) filename
        ((intelligent_chunking (env.sentSplit t) t).zip
          (generate_embeddings env w.embGet
            (intelligent_chunking (env.sentSplit t) t)).embeddings) 0
        = none := by
    intro k tx v hget hhit
    have hemb := generate_embeddings_hit_get? env w.embGet
      (intelligent_chunking (env.sentSplit t) t) k tx v hget hhit
    have hch : ∃ ch : Chunk, (intelligent_chunking (env.sentSplit t) t).get? k
        = some ch := by
      rw [List.get?_map] at hget
      rcases h : (intelligent_chunking (env.sentSplit t) t).get? k with _ | ch
      · rw [h] at hget
        cases hget
      · exact ⟨ch, rfl⟩
    rcases hch with ⟨ch, hch⟩
    have hz := zip_get?_some (intelligent_chunking (env.sentSplit t) t)
      (generate_embeddings env w.embGet
        (intelligent_chunking (env.sentSplit t) t)).embeddings
      k ch (PyEmb.plist v) hch hemb
    exact buildDocs_none_of_get? (generate_metadata env content filename user)
      filename _ 0 k ch (PyEmb.plist v) hz rfl
  constructor
  · rintro ⟨k, tx, v, hget, hhit⟩
    have hb := hbuild k tx v hget hhit
    simp [process_document, hsafe, hext, hne, hb]
  · intro hsucc tx htx
    by_contra hnone
    rcases Option.ne_none_iff_exists.mp hnone with ⟨v, hv⟩
    rcases List.mem_iff_get?.mp htx with ⟨k, hget⟩
    have hb := hbuild k tx v hget hv.symm
    have hres : (process_document env w content filename user).result
        = ProcResult.attributeError := by
      simp [process_document, hsafe, hext, hne, hb]
    rw [hres] at hsucc
    simp [ProcResult.isSuccess] at hsucc

/-- Witness for C10 at concrete inputs: a document whose single chunk
text has a cached embedding errors out. -/
theorem C10_witness :
    (process_document envD worldHit bytesOk "a.txt".toList none).result
      = ProcResult.attributeError := by
  exact (C10_cached_embedding_breaks_document envD worldHit bytesOk "a.txt".toList
    none "hi".toList (by decide) (by decide) (by decide)).1
    ⟨0, "hi".toList, [2], by decide, by decide⟩

/-! ## Claim C5: the embedding cache-aside protocol -/

/-- C5: a chunk text whose fingerprint is present in the embedding cache
(with a nonempty vector — Python truthiness) is never passed to the
encoder, and the cached vector is used in its place; every chunk text
that misses the cache is encoded and written back under its hash key with
TTL 86400 (one day); and if every chunk text hits the cache the encoder
is invoked zero times. -/
theorem C5_embedding_cache_aside (env : Env) (g : PyStr → Option (List Int))
    (chunks : List Chunk) (hbs : 0 < env.batchSize)
    (hlaw : ∀ l, (env.encode l).length = l.length) :
    (∀ t v, cacheHit g (embKey env t) = some v →
      t ∉ (generate_embeddings env g chunks).encoderCalls.flatten) ∧
    (∀ k t v, (chunks.map (fun c => c.text)).get? k = some t →
      cacheHit g (embKey env t) = some v →
      (generate_embeddings env g chunks).embeddings.get? k = some (PyEmb.plist v)) ∧
    (∀ t, t ∈ chunks.map (fun c => c.text) → cacheHit g (embKey env t) = none →
      t ∈ (generate_embeddings env g chunks).encoderCalls.flatten ∧
      ∃ w ∈ (generate_embeddings env g chunks).cacheWrites,
        w.1 = embKey env t ∧ w.2.2 = 86400) ∧
    ((∀ t ∈ chunks.map (fun c => c.text), ∃ v, cacheHit g (embKey env t) = some v) →
      (generate_embeddings env g chunks).encoderCalls = []) := by
  have hflat : (generate_embeddings env g chunks).encoderCalls.flatten
      = uncachedTexts env g (chunks.map (fun c => c.text)) := by
    show (encoderCallsOf env g (chunks.map (fun c => c.text))).flatten
        = uncachedTexts env g (chunks.map (fun c => c.text))
    exact encoderCalls_flatten env g (chunks.map (fun c => c.text)) hbs
  refine ⟨?_, ?_, ?_, ?_⟩
  · intro t v hhit hmem
    rw [hflat] at hmem
    unfold uncachedTexts at hmem
    have hmiss := splitHits_uncached_miss env g (chunks.map (fun c => c.text)) 0 t hmem
    rw [hmiss] at hhit
    cases hhit
  · intro k t v hget hhit
    exact generate_embeddings_hit_get? env g chunks k t v hget hhit
  · intro t htmem hmiss
    have hunc : t ∈ uncachedTexts env g (chunks.map (fun c => c.text)) := by
      unfold uncachedTexts
      exact splitHits_uncached_of_miss env g (chunks.map (fun c => c.text)) 0 t htmem hmiss
    refine ⟨by rw [hflat]; exact hunc, ?_⟩
    have hw := generate_embeddings_writes_map env g chunks hbs hlaw
    have hmem2 : (embKey env t, (86400 : Nat)) ∈
        (generate_embeddings env g chunks).cacheWrites.map (fun w => (w.1, w.2.2)) := by
      rw [hw]
      exact List.mem_map.mpr ⟨t, hunc, rfl⟩
    rcases List.mem_map.mp hmem2 with ⟨w, hwmem, hweq⟩
    exact ⟨w, hwmem, congrArg Prod.fst hweq, congrArg Prod.snd hweq⟩
  · intro hall
    have hunc : uncachedTexts env g (chunks.map (fun c => c.text)) = [] := by
      rcases hu : uncachedTexts env g (chunks.map (fun c => c.text)) with _ | ⟨u, us⟩
      · exact hu
      · have humem : u ∈ uncachedTexts env g (chunks.map (fun c => c.text)) := by
          rw [hu]
          simp
        unfold uncachedTexts at humem
        have h1 := splitHits_uncached_sub env g (chunks.map (fun c => c.text)) 0 u humem
        have h2 := splitHits_uncached_miss env g (chunks.map (fun c => c.text)) 0 u humem
        rcases hall u h1 with ⟨v, hv⟩
        rw [h2] at hv
        cases hv
    show encoderCallsOf env g (chunks.map (fun c => c.text)) = []
    unfold encoderCallsOf
    rw [if_pos hunc]

/-- Witness for C5 at concrete inputs: a hit is not encoded and its
cached vector is used; a miss is encoded; an all-hit document makes zero
encoder calls. -/
theorem C5_witness :
    ("hi".toList ∉ (generate_embeddings envD worldHit.embGet chunk1).encoderCalls.flatten) ∧
    (generate_embeddings envD worldHit.embGet chunk1).embeddings.get? 0
      = some (PyEmb.plist [2]) ∧
    ("hi".toList ∈ (generate_embeddings envD worldMiss.embGet chunk1).encoderCalls.flatten) ∧
    (generate_embeddings envD worldHit.embGet chunk1).encoderCalls = [] := by
  have hlaw : ∀ l, (envD.encode l).length = l.length := by
    intro l
    simp [envD]
  have hH := C5_embedding_cache_aside envD worldHit.embGet chunk1 (by decide) hlaw
  have hM := C5_embedding_cache_aside envD worldMiss.embGet chunk1 (by decide) hlaw
  refine ⟨hH.1 "hi".toList [2] (by decide), ?_, ?_, ?_⟩
  · exact hH.2.1 0 "hi".toList [2] (by decide) (by decide)
  · exact (hM.2.2.1 "hi".toList (by decide) (by decide)).1
  · refine hH.2.2.2 ?_
    intro t ht
    have ht2 : t = "hi".toList := by
      simpa [chunk1] using ht
    subst ht2
    exact ⟨[2], by decide⟩

/-! ## Claim C2: the chunking algorithm -/

/-- The sentences the chunker iterates over (stripped, nonempty) always
have a nonempty token list. -/
theorem filtered_sentences_tokens_ne_nil (raw : List PyStr) :
    ∀ s ∈ (raw.map pyStrip).filter (fun s => s ≠ []), pySplit s ≠ [] := by
  intro s hs
  rcases List.mem_filter.mp hs with ⟨hmem, hne⟩
  rcases List.mem_map.mp hmem with ⟨r, _, rfl⟩
  rw [pySplit_pyStrip]
  intro hsplit
  have hnil : pyStrip r = [] := pyStrip_eq_nil_iff_pySplit.mpr hsplit
  simp [hnil] at hne

/-- C2: on nonempty input with a working sentence model, the chunker is,
word for word, the spec's accumulate/close/overlap algorithm
(`chunkerSpecLoop` with target 1000 and overlap 200): a chunk is closed,
tagged semantic, exactly when appending the next sentence would push the
buffer's whitespace word count over 1000 while the buffer is nonempty,
the next chunk restarts from the trailing 200 words of the closed chunk,
and the remaining buffer is flushed; consequently every chunk after the
first begins with the trailing 200 words of its predecessor. -/
theorem C2_chunking_algorithm (raw : List PyStr) (text : PyStr)
    (htext : pyStrip text ≠ []) :
    (intelligent_chunking (some raw) text).map toW
      = chunkerSpecLoop 1000 200
          (((raw.map pyStrip).filter (fun s => s ≠ [])).map pySplit) [] ∧
    List.Chain' (fun a b => (pySplit a.text).rtake 200 <+: pySplit b.text)
      (intelligent_chunking (some raw) text) := by
  have hick : intelligent_chunking (some raw) text
      = chunkLoop ((raw.map pyStrip).filter (fun s => s ≠ [])) [] 0 [] := by
    simp [intelligent_chunking, htext]
  have hsim := chunkLoop_sim ((raw.map pyStrip).filter (fun s => s ≠ [])) [] 0 []
    (filtered_sentences_tokens_ne_nil raw) (by simp [pySplit_nil]) rfl
  have heq : (chunkLoop ((raw.map pyStrip).filter (fun s => s ≠ [])) [] 0 []).map toW
      = chunkerSpecLoop 1000 200
          (((raw.map pyStrip).filter (fun s => s ≠ [])).map pySplit) [] := by
    simpa [pySplit_nil] using hsim
  constructor
  · rw [hick, heq]
  · rw [hick]
    have hchain : List.Chain' (fun a b => a.1.rtake 200 <+: b.1)
        ((chunkLoop ((raw.map pyStrip).filter (fun s => s ≠ [])) [] 0 []).map toW) := by
      rw [heq]
      exact chunkerSpecLoop_chain 1000 200 _ []
    exact (List.chain'_map toW).mp hchain

/-- Witness for C2 at a concrete input. -/
theorem C2_witness :
    (intelligent_chunking (some ["ab cd".toList]) "ab cd".toList).map toW
      = chunkerSpecLoop 1000 200
          (((["ab cd".toList].map pyStrip).filter (fun s => s ≠ [])).map pySplit) [] ∧
    List.Chain' (fun a b => (pySplit a.text).rtake 200 <+: pySplit b.text)
      (intelligent_chunking (some ["ab cd".toList]) "ab cd".toList) := by
  have h := C2_chunking_algorithm ["ab cd".toList] "ab cd".toList (by decide)
  exact h

/-! ## Claim C8: the chunk ordering invariant -/

/-- C8: a document chunked into N chunks and assembled with an embedding
list of matching length yields entries whose `chunk_index` values are
exactly 0..N-1 in order with no gaps, whose ids are the fingerprint
joined with the chunk index, which preserve the chunker's text order, and
whose word lists — each chunk's overlap prefix removed — concatenate back
to the words of the sentence sequence in order. -/
theorem C8_chunk_ordering_invariant (md : Metadata) (filename : PyStr)
    (raw : List PyStr) (text : PyStr) (embs : List PyEmb) (docs : List StorableDoc)
    (htext : pyStrip text ≠ [])
    (hlen : embs.length = (intelligent_chunking (some raw) text).length)
    (hdocs : buildDocs md filename
        ((intelligent_chunking (some raw) text).zip embs) 0 = some docs) :
    docs.map (fun d => d.chunk_index) = List.range docs.length ∧
    docs.map (fun d => d.id)
      = (List.range docs.length).map (fun j => md.file_hash ++ '_' :: natStr j) ∧
    docs.map (fun d => d.text)
      = (intelligent_chunking (some raw) text).map (fun c => c.text) ∧
    joinDropFrom 200 [] (docs.map (fun d => pySplit d.text))
      = (((raw.map pyStrip).filter (fun s => s ≠ [])).map pySplit).flatten := by
  obtain ⟨h1, h2, h3, h4⟩ := buildDocs_some_spec md filename _ 0 docs hdocs
  have hziplen : ((intelligent_chunking (some raw) text).zip embs).length
      = (intelligent_chunking (some raw) text).length := by
    rw [List.length_zip, hlen, Nat.min_self]
  have htexts : docs.map (fun d => d.text)
      = (intelligent_chunking (some raw) text).map (fun c => c.text) := by
    rw [h4]
    exact map_fst_zip_comp (fun c : Chunk => c.text) _ _ (le_of_eq hlen.symm)
  refine ⟨?_, ?_, htexts, ?_⟩
  · rw [h2, ← h1, List.range_eq_range']
  · rw [h3, ← h1, List.range_eq_range']
  · have hick : intelligent_chunking (some raw) text
        = chunkLoop ((raw.map pyStrip).filter (fun s => s ≠ [])) [] 0 [] := by
      simp [intelligent_chunking, htext]
    have hsim := chunkLoop_sim ((raw.map pyStrip).filter (fun s => s ≠ [])) [] 0 []
      (filtered_sentences_tokens_ne_nil raw) (by simp [pySplit_nil]) rfl
    have heq : (chunkLoop ((raw.map pyStrip).filter (fun s => s ≠ [])) [] 0 []).map toW
        = chunkerSpecLoop 1000 200
            (((raw.map pyStrip).filter (fun s => s ≠ [])).map pySplit) [] := by
      simpa [pySplit_nil] using hsim
    have hmm : docs.map (fun d => pySplit d.text)
        = ((intelligent_chunking (some raw) text).map toW).map Prod.fst := by
      calc docs.map (fun d => pySplit d.text)
          = (docs.map (fun d => d.text)).map pySplit := by
            rw [List.map_map]
            rfl
        _ = ((intelligent_chunking (some raw) text).map (fun c => c.text)).map pySplit := by
            rw [htexts]
        _ = ((intelligent_chunking (some raw) text).map toW).map Prod.fst := by
            rw [List.map_map, List.map_map]
            rfl
    rw [hmm, hick, heq]
    have hG := chunkerSpecLoop_joinDrop 1000 200
      ((((raw.map pyStrip).filter (fun s => s ≠ []))).map pySplit) [] [] (by simp)
    simpa using hG

/-- Witness for C8 at a concrete input. -/
theorem C8_witness :
    [docD].map (fun d => d.chunk_index) = List.range ([docD].length) ∧
    [docD].map (fun d => d.id)
      = (List.range ([docD].length)).map (fun j => mdD.file_hash ++ '_' :: natStr j) ∧
    [docD].map (fun d => d.text)
      = (intelligent_chunking (some ["hi".toList]) "hi".toList).map (fun c => c.text) ∧
    joinDropFrom 200 [] ([docD].map (fun d => pySplit d.text))
      = (((["hi".toList].map pyStrip).filter (fun s => s ≠ [])).map pySplit).flatten := by
  exact C8_chunk_ordering_invariant mdD "a.txt".toList ["hi".toList] "hi".toList
    [PyEmb.arr [1]] [docD] (by decide) (by decide) (by decide)

end DeepMu
